import Mathlib

/-!
Verification of the Vanilla-Todo reactive component toolkit
(src/Component.js, src/Context.js) against its specification.

The development shallowly embeds the core engine:
  * `Comp` models a `Component` instance (state object behind the Proxy,
    `__pendingKeys`, `__flushScheduled`, the microtask queue occupancy,
    `boundElements`, hook metadata, the effect queue, children handles,
    event listeners, attachment flags).
  * `stateWrite` is the Proxy `set` trap; `writeBurst` applies a synchronous
    burst of writes.
  * `flush` is `Component.__flush`, instrumented to emit a trace of the
    primitive steps it performs, in source order.
  * `removeC` is `Component.remove`, likewise traced.
  * `useEffect` is `Component.useEffect`.
  * `Ctx` models a `Context` instance; provider entries live in an explicit
    heap so that unsubscribe closures capturing an entry object can be
    modelled faithfully (`registerProvider` allocates a fresh entry).
JavaScript values are modelled by `JSValue`; strict equality `===` on the
primitives used here coincides with decidable equality on `JSValue`.
DOM text nodes are opaque `Nat` handles with a `dom` map giving their
current `textContent`.
-/

/-- JavaScript primitive values as used by the toolkit's state and contexts.
`===` on these primitives is decidable equality. -/
inductive JSValue where
  | undef : JSValue
  | null : JSValue
  | bool : Bool → JSValue
  | num : Int → JSValue
  | str : String → JSValue
deriving DecidableEq, Repr

/-- First-match association lookup (`Map.get` / object property read). -/
def getA {α β : Type} [DecidableEq α] : List (α × β) → α → Option β
  | [], _ => none
  | (a, b) :: t, k => if a = k then some b else getA t k

/-- In-place overwriting association update (`Map.set` / property write):
replaces the existing binding for the key, else appends. -/
def setA {α β : Type} [DecidableEq α] : List (α × β) → α → β → List (α × β)
  | [], k, v => [(k, v)]
  | (a, b) :: t, k, v => if a = k then (k, v) :: t else (a, b) :: setA t k v

/-- A cleanup function stored in a hook slot. `throwsErr` records whether
invoking it throws (the code swallows such exceptions). -/
structure Cleanup where
  id : Nat
  throwsErr : Bool
deriving DecidableEq, Repr

/-- An effect body queued by `useEffect`. Running it may enqueue a further
effect into the component's effect queue and returns an optional cleanup;
`throwErr` models a body that throws (caught and logged by the drain loop). -/
inductive EffBody where
  | ret : Option Cleanup → EffBody
  | enqThen : Nat → EffBody → Option Cleanup → EffBody
  | throwErr : EffBody
deriving DecidableEq, Repr

/-- One hook slot of `__hookMeta`: `{deps, cleanup}`. `deps = none` models a
slot whose stored dependency value is `undefined`. -/
structure Hook where
  deps : Option (List JSValue)
  cleanup : Option Cleanup
deriving DecidableEq, Repr

/-- A `Component` instance. `queuedFlushes` counts the flush callbacks this
component currently has sitting in the microtask queue (`queueMicrotask`
calls made minus flushes run). `children` and `eventListeners` hold opaque
handles; `attached` models `element.parentNode !== null`. -/
structure Comp where
  stateVals : List (String × JSValue)
  pendingKeys : List String
  flushScheduled : Bool
  queuedFlushes : Nat
  boundElements : List (String × List Nat)
  dom : List (Nat × JSValue)
  hookCounter : Nat
  hookMeta : List Hook
  effectQueue : List (Nat × EffBody)
  children : List Nat
  eventListeners : List (String × Nat)
  attached : Bool
  isMounted : Bool
deriving DecidableEq, Repr

/-- `this.state[key]`: property read on the proxied target; an absent key
reads as `undefined`. -/
def jsGet (c : Comp) (k : String) : JSValue :=
  (getA c.stateVals k).getD JSValue.undef

/-- `Set.prototype.add` on the insertion-ordered pending-key set. -/
def addPending (l : List String) (k : String) : List String :=
  if k ∈ l then l else l ++ [k]

/-- The Proxy `set` trap (Component.js:68-79): no-op when the new value is
strictly equal to the current one; otherwise store it, mark the key pending,
and queue a flush microtask unless one is already scheduled. -/
def stateWrite (c : Comp) (k : String) (v : JSValue) : Comp :=
  if jsGet c k = v then c
  else
    let c1 : Comp := { c with stateVals := setA c.stateVals k v,
                              pendingKeys := addPending c.pendingKeys k }
    if c1.flushScheduled then c1
    else { c1 with flushScheduled := true, queuedFlushes := c1.queuedFlushes + 1 }

/-- A synchronous burst of state writes, applied left to right. -/
def writeBurst (c : Comp) (ws : List (String × JSValue)) : Comp :=
  ws.foldl (fun c p => stateWrite c p.1 p.2) c

theorem getA_setA_self {α β : Type} [DecidableEq α] (m : List (α × β)) (k : α) (v : β) :
    getA (setA m k v) k = some v := by
  induction m with
  | nil => simp [setA, getA]
  | cons p t ih =>
    obtain ⟨a, b⟩ := p
    by_cases h : a = k
    · simp [setA, getA, h]
    · simp [setA, getA, h, ih]

theorem getA_setA_other {α β : Type} [DecidableEq α] (m : List (α × β)) (k k' : α) (v : β)
    (h : k' ≠ k) : getA (setA m k v) k' = getA m k' := by
  induction m with
  | nil => simp [setA, getA, Ne.symm h]
  | cons p t ih =>
    obtain ⟨a, b⟩ := p
    by_cases ha : a = k
    · subst ha
      simp [setA, getA, Ne.symm h]
    · by_cases ha' : a = k'
      · simp [setA, getA, ha, ha', h]
      · simp [setA, getA, ha, ha', ih]

/-- A write leaves every other key's value unchanged. -/
theorem jsGet_stateWrite_other (c : Comp) (k k' : String) (v : JSValue) (h : k' ≠ k) :
    jsGet (stateWrite c k v) k' = jsGet c k' := by
  unfold stateWrite
  by_cases hv : jsGet c k = v
  · simp [hv]
  · simp only [hv, if_false]
    by_cases hf : c.flushScheduled <;>
      simp [jsGet, hf, getA_setA_other _ _ _ _ h]

/-- The entries of a burst that change the value they write (relative to the
state at the start of the burst). -/
def burstChanged (c : Comp) (ws : List (String × JSValue)) : List (String × JSValue) :=
  ws.filter fun p => decide (jsGet c p.1 ≠ p.2)

/-- The microtask-queue invariant: the number of queued flush callbacks is 1
when `__flushScheduled` is set and 0 otherwise. -/
def qInv (c : Comp) : Prop :=
  c.queuedFlushes = if c.flushScheduled then 1 else 0

theorem stateWrite_noop (c : Comp) (k : String) (v : JSValue) (h : jsGet c k = v) :
    stateWrite c k v = c := by
  simp [stateWrite, h]

theorem stateWrite_pendingKeys (c : Comp) (k : String) (v : JSValue) (h : jsGet c k ≠ v) :
    (stateWrite c k v).pendingKeys = addPending c.pendingKeys k := by
  unfold stateWrite
  simp only [h, if_false]
  by_cases hf : c.flushScheduled <;> simp [hf]

theorem stateWrite_flushScheduled_of_changed (c : Comp) (k : String) (v : JSValue)
    (h : jsGet c k ≠ v) : (stateWrite c k v).flushScheduled = true := by
  unfold stateWrite
  simp only [h, if_false]
  by_cases hf : c.flushScheduled <;> simp [hf]

theorem stateWrite_flushScheduled_mono (c : Comp) (k : String) (v : JSValue)
    (h : c.flushScheduled = true) : (stateWrite c k v).flushScheduled = true := by
  unfold stateWrite
  by_cases hv : jsGet c k = v
  · simp [hv, h]
  · simp [hv, h]

theorem stateWrite_qInv (c : Comp) (k : String) (v : JSValue) (h : qInv c) :
    qInv (stateWrite c k v) := by
  unfold stateWrite
  by_cases hv : jsGet c k = v
  · simp [hv, h]
  · simp only [hv, if_false]
    by_cases hf : c.flushScheduled <;> simp_all [qInv, hf]

theorem writeBurst_qInv (ws : List (String × JSValue)) (c : Comp) (h : qInv c) :
    qInv (writeBurst c ws) := by
  induction ws generalizing c with
  | nil => exact h
  | cons p t ih => exact ih (stateWrite c p.1 p.2) (stateWrite_qInv c p.1 p.2 h)

theorem writeBurst_flushScheduled_mono (ws : List (String × JSValue)) (c : Comp)
    (h : c.flushScheduled = true) : (writeBurst c ws).flushScheduled = true := by
  induction ws generalizing c with
  | nil => exact h
  | cons p t ih =>
    exact ih (stateWrite c p.1 p.2) (stateWrite_flushScheduled_mono c p.1 p.2 h)

theorem writeBurst_flushScheduled_of_changed (ws : List (String × JSValue)) (c : Comp)
    (h : burstChanged c ws ≠ []) : (writeBurst c ws).flushScheduled = true := by
  induction ws generalizing c with
  | nil => simp [burstChanged] at h
  | cons p t ih =>
    by_cases hv : jsGet c p.1 = p.2
    · have hw : stateWrite c p.1 p.2 = c := stateWrite_noop c p.1 p.2 hv
      have ht : burstChanged c t ≠ [] := by
        simpa [burstChanged, hv] using h
      show (writeBurst (stateWrite c p.1 p.2) t).flushScheduled = true
      rw [hw]
      exact ih c ht
    · show (writeBurst (stateWrite c p.1 p.2) t).flushScheduled = true
      exact writeBurst_flushScheduled_mono t _
        (stateWrite_flushScheduled_of_changed c p.1 p.2 hv)

theorem writeBurst_pendingKeys (ws : List (String × JSValue)) (c : Comp)
    (hnd : (ws.map Prod.fst).Nodup)
    (hdisj : ∀ p ∈ ws, p.1 ∉ c.pendingKeys) :
    (writeBurst c ws).pendingKeys
      = c.pendingKeys ++ (burstChanged c ws).map Prod.fst := by
  induction ws generalizing c with
  | nil => simp [writeBurst, burstChanged]
  | cons p t ih =>
    obtain ⟨k, v⟩ := p
    have hnd' : (t.map Prod.fst).Nodup := (List.nodup_cons.mp hnd).2
    have hknotin : k ∉ t.map Prod.fst := (List.nodup_cons.mp hnd).1
    by_cases hv : jsGet c k = v
    · have hw : stateWrite c k v = c := stateWrite_noop c k v hv
      show (writeBurst (stateWrite c k v) t).pendingKeys = _
      rw [hw, ih c hnd' (fun q hq => hdisj q (List.mem_cons_of_mem _ hq))]
      simp [burstChanged, hv]
    · set c1 := stateWrite c k v with hc1
      have hpend1 : c1.pendingKeys = c.pendingKeys ++ [k] := by
        rw [hc1, stateWrite_pendingKeys c k v hv, addPending]
        simp [hdisj (k, v) (List.mem_cons_self _ _)]
      have hvals : ∀ q ∈ t, jsGet c1 q.1 = jsGet c q.1 := by
        intro q hq
        exact jsGet_stateWrite_other c k q.1 v
          (fun hEq => hknotin (hEq ▸ List.mem_map_of_mem Prod.fst hq))
      have hdisj1 : ∀ q ∈ t, q.1 ∉ c1.pendingKeys := by
        intro q hq
        rw [hpend1]
        simp only [List.mem_append, List.mem_singleton]
        rintro (hin | hEq)
        · exact hdisj q (List.mem_cons_of_mem _ hq) hin
        · exact hknotin (hEq ▸ List.mem_map_of_mem Prod.fst hq)
      have hfilter : burstChanged c1 t = burstChanged c t := by
        unfold burstChanged
        exact List.filter_congr (fun q hq => by rw [hvals q hq])
      show (writeBurst c1 t).pendingKeys = _
      rw [ih c1 hnd' hdisj1, hpend1, hfilter]
      simp [burstChanged, hv]

/-- C1: in one synchronous burst of writes to distinct keys (at least one of
which actually changes a value), exactly one flush callback ends up queued,
the pending-key set the flush will observe is exactly the keys changed in
the burst, and no prefix of the burst ever has more than one flush callback
queued. -/
theorem C1_burst_queues_single_flush (c : Comp) (ws : List (String × JSValue))
    (hnd : (ws.map Prod.fst).Nodup)
    (hf : c.flushScheduled = false) (hq : c.queuedFlushes = 0)
    (hp : c.pendingKeys = [])
    (hch : burstChanged c ws ≠ []) :
    (writeBurst c ws).queuedFlushes = 1
    ∧ (writeBurst c ws).pendingKeys = (burstChanged c ws).map Prod.fst
    ∧ ∀ pre suf, ws = pre ++ suf → (writeBurst c pre).queuedFlushes ≤ 1 := by
  have hinv : qInv c := by simp [qInv, hf, hq]
  have hsched := writeBurst_flushScheduled_of_changed ws c hch
  have hinv' := writeBurst_qInv ws c hinv
  refine ⟨?_, ?_, ?_⟩
  · rw [qInv, hsched] at hinv'
    simpa using hinv'
  · rw [writeBurst_pendingKeys ws c hnd (by simp [hp]), hp]
    simp
  · intro pre _ _
    have h := writeBurst_qInv pre c hinv
    rw [qInv] at h
    by_cases hfs : (writeBurst c pre).flushScheduled <;> simp [hfs] at h <;> omega

/-- The empty/fresh component state produced by the constructor (no props,
no bound elements yet), with an initial state mapping. -/
def mkComp (vals : List (String × JSValue)) : Comp :=
  { stateVals := vals, pendingKeys := [], flushScheduled := false,
    queuedFlushes := 0, boundElements := [], dom := [], hookCounter := 0,
    hookMeta := [], effectQueue := [], children := [], eventListeners := [],
    attached := false, isMounted := false }

/-- Witness for C1 at a concrete burst. -/
theorem C1_burst_queues_single_flush_witness :
    (writeBurst (mkComp [("a", JSValue.num 0)])
        [("a", JSValue.num 1), ("b", JSValue.num 2)]).queuedFlushes = 1
    ∧ (writeBurst (mkComp [("a", JSValue.num 0)])
        [("a", JSValue.num 1), ("b", JSValue.num 2)]).pendingKeys = ["a", "b"] := by
  have h := C1_burst_queues_single_flush (mkComp [("a", JSValue.num 0)])
    [("a", JSValue.num 1), ("b", JSValue.num 2)]
    (by decide) (by rfl) (by rfl) (by rfl) (by decide)
  refine ⟨h.1, ?_⟩
  rw [h.2.1]
  rfl

/-- Observable primitive steps performed by `__flush` and `remove`, in the
order the source executes them. -/
inductive Ev where
  | domWrite (key : String) (node : Nat) (v : JSValue)
  | clearPending
  | clearFlag
  | update
  | effectRun (slot : Nat)
  | enqueueEffect (slot : Nat)
  | cleanupRun (id : Nat) (throwsErr : Bool)
  | unmount
  | childRemove (id : Nat)
  | listenerRemove (evt : String) (handler : Nat)
  | detach
deriving DecidableEq, Repr

/-- `this.state[key] ?? ""`: nullish coalescing to the empty string. -/
def nullishToEmpty (v : JSValue) : JSValue :=
  match v with
  | JSValue.undef => JSValue.str ""
  | JSValue.null => JSValue.str ""
  | v => v

/-- `nodes.forEach(n => { try { n.textContent = val } catch {} })`: write the
(once-computed) value into each bound node. -/
def pushNodes (c : Comp) (k : String) (v : JSValue) : List Nat → Comp × List Ev
  | [] => (c, [])
  | n :: t =>
    let r := pushNodes { c with dom := setA c.dom n v } k v t
    (r.1, Ev.domWrite k n v :: r.2)

/-- Body of the `__pendingKeys.forEach` loop for one key: look up its bound
nodes (skip if none), read `this.state[key] ?? ""` once, write every node. -/
def pushKey (c : Comp) (k : String) : Comp × List Ev :=
  match getA c.boundElements k with
  | none => (c, [])
  | some nodes => pushNodes c k (nullishToEmpty (jsGet c k)) nodes

/-- The full `__pendingKeys.forEach` loop (nothing mutates the pending set
during it, so iterating the initial list is the live iteration). -/
def pushDomKeys (c : Comp) : List String → Comp × List Ev
  | [] => (c, [])
  | k :: t =>
    let r := pushKey c k
    let r2 := pushDomKeys r.1 t
    (r2.1, r.2 ++ r2.2)

def pushDom (c : Comp) : Comp × List Ev :=
  pushDomKeys c c.pendingKeys

/-- `if (typeof cleanup === "function") eff.meta.cleanup = cleanup`: store a
returned cleanup into the slot; leave the slot untouched otherwise. -/
def storeCleanup (c : Comp) (idx : Nat) : Option Cleanup → Comp
  | none => c
  | some cl =>
    { c with hookMeta :=
        c.hookMeta.set idx { (c.hookMeta.getD idx ⟨none, none⟩) with cleanup := some cl } }

/-- Run one drained effect `{effect, meta}` (the slot index stands for the
`meta` reference): the body may enqueue a further effect or perform a state
write before returning its optional cleanup; a thrown exception is caught
and logged. -/
def runEffItem (c : Comp) (item : Nat × EffBody) : Comp × List Ev :=
  match item.2 with
  | EffBody.ret cl => (storeCleanup c item.1 cl, [Ev.effectRun item.1])
  | EffBody.enqThen slot2 b cl =>
    (storeCleanup { c with effectQueue := c.effectQueue ++ [(slot2, b)] } item.1 cl,
     [Ev.effectRun item.1])
  | EffBody.throwErr => (c, [Ev.effectRun item.1])

/-- `for (const eff of effects) ...` over the drained snapshot. -/
def drainEffects (c : Comp) : List (Nat × EffBody) → Comp × List Ev
  | [] => (c, [])
  | it :: t =>
    let r := runEffItem c it
    let r2 := drainEffects r.1 t
    (r2.1, r.2 ++ r2.2)

/-- `Component.__flush` (Component.js:128-153), in source order: write bound
DOM nodes for the pending keys, clear `__pendingKeys`, clear
`__flushScheduled`, invoke `onUpdate` (modelled as a trace event), then
drain a snapshot (`slice()` + truncate) of the effect queue. -/
def flush (c : Comp) : Comp × List Ev :=
  let p := pushDom c
  let c1 := { p.1 with pendingKeys := [], flushScheduled := false }
  let snapshot := c1.effectQueue
  let c2 := { c1 with effectQueue := [] }
  let d := drainEffects c2 snapshot
  (d.1, p.2 ++ [Ev.clearPending, Ev.clearFlag, Ev.update] ++ d.2)

/-- The effects a drained effect body enqueues into the (freshly truncated)
effect queue while it runs. -/
def enqOf : Nat × EffBody → List (Nat × EffBody)
  | (_, EffBody.enqThen s b _) => [(s, b)]
  | _ => []

theorem pushNodes_preserves (ns : List Nat) (c : Comp) (k : String) (v : JSValue) :
    (pushNodes c k v ns).1.stateVals = c.stateVals
    ∧ (pushNodes c k v ns).1.boundElements = c.boundElements
    ∧ (pushNodes c k v ns).1.effectQueue = c.effectQueue
    ∧ (pushNodes c k v ns).1.pendingKeys = c.pendingKeys := by
  induction ns generalizing c with
  | nil => simp [pushNodes]
  | cons n t ih => simpa [pushNodes] using ih { c with dom := setA c.dom n v }

theorem pushKey_preserves (c : Comp) (k : String) :
    (pushKey c k).1.stateVals = c.stateVals
    ∧ (pushKey c k).1.boundElements = c.boundElements
    ∧ (pushKey c k).1.effectQueue = c.effectQueue
    ∧ (pushKey c k).1.pendingKeys = c.pendingKeys := by
  unfold pushKey
  cases getA c.boundElements k with
  | none => simp
  | some nodes => exact pushNodes_preserves nodes c k _

theorem pushDomKeys_preserves (ks : List String) (c : Comp) :
    (pushDomKeys c ks).1.stateVals = c.stateVals
    ∧ (pushDomKeys c ks).1.effectQueue = c.effectQueue := by
  induction ks generalizing c with
  | nil => simp [pushDomKeys]
  | cons k t ih =>
    have h1 := pushKey_preserves c k
    have h2 := ih (pushKey c k).1
    exact ⟨by simp [pushDomKeys]; rw [h2.1, h1.1],
           by simp [pushDomKeys]; rw [h2.2, h1.2.2.1]⟩

theorem pushNodes_events (ns : List Nat) (c : Comp) (k : String) (v : JSValue) :
    ∀ e ∈ (pushNodes c k v ns).2, ∃ n, e = Ev.domWrite k n v := by
  induction ns generalizing c with
  | nil => simp [pushNodes]
  | cons n t ih =>
    intro e he
    simp only [pushNodes, List.mem_cons] at he
    rcases he with h | h
    · exact ⟨n, h⟩
    · exact ih { c with dom := setA c.dom n v } e h

theorem pushKey_events (c : Comp) (k : String) :
    ∀ e ∈ (pushKey c k).2, ∃ n, e = Ev.domWrite k n (nullishToEmpty (jsGet c k)) := by
  unfold pushKey
  cases getA c.boundElements k with
  | none => simp
  | some nodes => exact pushNodes_events nodes c k _

theorem pushDomKeys_events (ks : List String) (c : Comp) :
    ∀ e ∈ (pushDomKeys c ks).2,
      ∃ k n, k ∈ ks ∧ e = Ev.domWrite k n (nullishToEmpty (jsGet c k)) := by
  induction ks generalizing c with
  | nil => simp [pushDomKeys]
  | cons k t ih =>
    intro e he
    simp only [pushDomKeys, List.mem_append] at he
    rcases he with h | h
    · obtain ⟨n, hn⟩ := pushKey_events c k e h
      exact ⟨k, n, List.mem_cons_self _ _, hn⟩
    · obtain ⟨k', n, hk', hn⟩ := ih (pushKey c k).1 e h
      refine ⟨k', n, List.mem_cons_of_mem _ hk', ?_⟩
      rwa [jsGet, (pushKey_preserves c k).1] at hn

theorem stateWrite_effectQueue (c : Comp) (k : String) (v : JSValue) :
    (stateWrite c k v).effectQueue = c.effectQueue := by
  unfold stateWrite
  by_cases hv : jsGet c k = v
  · simp [hv]
  · simp only [hv, if_false]
    by_cases hf : c.flushScheduled <;> simp [hf]

theorem storeCleanup_effectQueue (c : Comp) (idx : Nat) (cl : Option Cleanup) :
    (storeCleanup c idx cl).effectQueue = c.effectQueue := by
  cases cl <;> simp [storeCleanup]

theorem runEffItem_trace (c : Comp) (it : Nat × EffBody) :
    (runEffItem c it).2 = [Ev.effectRun it.1] := by
  obtain ⟨idx, b⟩ := it
  cases b <;> simp [runEffItem]

theorem runEffItem_effectQueue (c : Comp) (it : Nat × EffBody) :
    (runEffItem c it).1.effectQueue = c.effectQueue ++ enqOf it := by
  obtain ⟨idx, b⟩ := it
  cases b <;> simp [runEffItem, enqOf, storeCleanup_effectQueue]

theorem drainEffects_trace (items : List (Nat × EffBody)) (c : Comp) :
    (drainEffects c items).2 = items.map (fun it => Ev.effectRun it.1) := by
  induction items generalizing c with
  | nil => simp [drainEffects]
  | cons it t ih => simp [drainEffects, runEffItem_trace, ih]

theorem drainEffects_effectQueue (items : List (Nat × EffBody)) (c : Comp) :
    (drainEffects c items).1.effectQueue = c.effectQueue ++ items.flatMap enqOf := by
  induction items generalizing c with
  | nil => simp [drainEffects]
  | cons it t ih =>
    simp [drainEffects, ih, runEffItem_effectQueue, List.append_assoc]

/-- The claim's required ordering, as a check on a flush trace: is there a
bound-node DOM write strictly before the pending-set clear? (The claim
requires the clears to come first, i.e. this to be `false`.) -/
def domWriteBeforeClear (tr : List Ev) : Bool :=
  (tr.takeWhile fun e => decide (e ≠ Ev.clearPending)).any fun e =>
    match e with
    | Ev.domWrite _ _ _ => true
    | _ => false

/-- A concrete component with one pending key and one bound node, as left by
a single effective write. -/
def c3ex : Comp :=
  { mkComp [("a", JSValue.num 1)] with
      pendingKeys := ["a"], flushScheduled := true, queuedFlushes := 1,
      boundElements := [("a", [0])], dom := [(0, JSValue.str "")] }

/-- C3 counterexample: the flush of `c3ex` performs its bound-node DOM write
*before* clearing `pendingKeys` (and `flushScheduled`), refuting the claimed
order "first snapshot/clear, then push". -/
theorem C3_counterexample_dom_write_precedes_clear :
    domWriteBeforeClear (flush c3ex).2 = true := by decide

/-- C3 (amended): a flush performs, in order, the bound-node DOM writes for
the pending keys (each writing the key's current value), then clears
`pendingKeys`, then clears `flushScheduled`, then invokes the
update-lifecycle callback, then runs exactly the effects present in the
queue when the drain snapshot was taken; effects enqueued while draining
form the post-flush queue (they run on a later flush, not this one). -/
theorem C3_flush_step_order (c : Comp) :
    (flush c).2
      = (pushDom c).2 ++ [Ev.clearPending, Ev.clearFlag, Ev.update]
          ++ c.effectQueue.map (fun it => Ev.effectRun it.1)
    ∧ (∀ e ∈ (pushDom c).2,
        ∃ k n, k ∈ c.pendingKeys ∧ e = Ev.domWrite k n (nullishToEmpty (jsGet c k)))
    ∧ (flush c).1.effectQueue = c.effectQueue.flatMap enqOf := by
  have hq : (pushDom c).1.effectQueue = c.effectQueue := (pushDomKeys_preserves _ c).2
  refine ⟨?_, ?_, ?_⟩
  · show (pushDom c).2 ++ [Ev.clearPending, Ev.clearFlag, Ev.update]
        ++ (drainEffects _ _).2 = _
    rw [drainEffects_trace]
    simp [hq]
  · exact pushDomKeys_events c.pendingKeys c
  · show (drainEffects _ _).1.effectQueue = _
    rw [drainEffects_effectQueue]
    simp [hq]

/-- The dependency comparison of `useEffect` (Component.js:190-192):
changed if the stored previous value is `undefined`, the new `deps` is
`undefined`, lengths differ, or some position differs under `!==`. -/
def depsChanged (prev deps : Option (List JSValue)) : Bool :=
  match prev, deps with
  | none, _ => true
  | _, none => true
  | some p, some d =>
    if p.length ≠ d.length then true
    else (p.zip d).any fun q => decide (q.1 ≠ q.2)

/-- The dependency-change condition exactly as the claim words it: previous
absent, or new absent, or lengths differ, or some position differs by strict
equality. -/
def SpecDepsChanged (prev deps : Option (List JSValue)) : Prop :=
  prev = none ∨ deps = none
  ∨ ∃ p d, prev = some p ∧ deps = some d ∧
      (p.length ≠ d.length
       ∨ ∃ i, i < p.length ∧ p.getD i JSValue.undef ≠ d.getD i JSValue.undef)

theorem zip_any_ne_iff (p : List JSValue) (d : List JSValue) (h : p.length = d.length) :
    ((p.zip d).any fun q => decide (q.1 ≠ q.2)) = true
      ↔ ∃ i, i < p.length ∧ p.getD i JSValue.undef ≠ d.getD i JSValue.undef := by
  induction p generalizing d with
  | nil =>
    cases d with
    | nil => simp
    | cons b t' => simp at h
  | cons a t ih =>
    cases d with
    | nil => simp at h
    | cons b t' =>
      have h' : t.length = t'.length := by simpa using h
      simp only [List.zip_cons_cons, List.any_cons, Bool.or_eq_true, decide_eq_true_eq]
      constructor
      · rintro (hab | hrest)
        · exact ⟨0, by simp, by simpa using hab⟩
        · obtain ⟨i, hi, hne⟩ := (ih t' h').mp hrest
          exact ⟨i + 1, by simpa using hi, by simpa using hne⟩
      · rintro ⟨i, hi, hne⟩
        cases i with
        | zero => exact Or.inl (by simpa using hne)
        | succ i =>
          exact Or.inr ((ih t' h').mpr ⟨i, by simpa using hi, by simpa using hne⟩)

/-- The code's dependency diffing decides exactly the condition the claim
states. -/
theorem depsChanged_iff_spec (prev deps : Option (List JSValue)) :
    depsChanged prev deps = true ↔ SpecDepsChanged prev deps := by
  cases prev with
  | none => simp [depsChanged, SpecDepsChanged]
  | some p =>
    cases deps with
    | none => simp [depsChanged, SpecDepsChanged]
    | some d =>
      show (if p.length ≠ d.length then true
            else (p.zip d).any fun q => decide (q.1 ≠ q.2)) = true
          ↔ SpecDepsChanged (some p) (some d)
      unfold SpecDepsChanged
      by_cases hl : p.length = d.length
      · rw [if_neg (not_not_intro hl), zip_any_ne_iff p d hl]
        constructor
        · intro hx
          exact Or.inr (Or.inr ⟨p, d, rfl, rfl, Or.inr hx⟩)
        · rintro (hbad | hbad | ⟨p', d', hp, hd, hor⟩)
          · exact absurd hbad (by simp)
          · exact absurd hbad (by simp)
          · rw [Option.some.injEq] at hp hd
            subst hp
            subst hd
            rcases hor with hbad | hx
            · exact absurd hl hbad
            · exact hx
      · rw [if_pos hl]
        constructor
        · intro _
          exact Or.inr (Or.inr ⟨p, d, rfl, rfl, Or.inl hl⟩)
        · intro _
          rfl

/-- `this.__hookMeta[idx] ||= {}`: extend the slot array up to `idx` with
empty slots (an out-of-range JS read is `undefined`, treated the same as an
empty record by every consumer). -/
def ensureHook (hm : List Hook) (idx : Nat) : List Hook :=
  if idx < hm.length then hm
  else hm ++ List.replicate (idx + 1 - hm.length) (⟨none, none⟩ : Hook)

def getHook (hm : List Hook) (idx : Nat) : Hook :=
  hm.getD idx ⟨none, none⟩

theorem ensureHook_length (hm : List Hook) (idx : Nat) :
    idx < (ensureHook hm idx).length := by
  unfold ensureHook
  by_cases h : idx < hm.length
  · simp [h]
  · simp only [h, if_false, List.length_append, List.length_replicate]
    omega

theorem getHook_set_self (hm : List Hook) (idx : Nat) (h : Hook)
    (hlt : idx < hm.length) : getHook (hm.set idx h) idx = h := by
  unfold getHook
  induction hm generalizing idx with
  | nil => simp at hlt
  | cons a t ih =>
    cases idx with
    | zero => simp
    | succ i => simpa using ih i (by simpa using hlt)

/-- `Component.useEffect` (Component.js:186-202): allocate the next hook
slot, diff the dependency array against the slot's stored one; when changed,
run and clear the slot's cleanup, store the new deps, enqueue the effect and
request a flush. (The source also stores `meta.effect = effect`, a field
nothing ever reads; it is omitted here. The queue item's `meta` reference is
represented by the slot index.) -/
def useEffect (c : Comp) (effect : EffBody) (deps : Option (List JSValue)) :
    Comp × List Ev :=
  let idx := c.hookCounter
  let hm := ensureHook c.hookMeta idx
  let meta := getHook hm idx
  let c0 : Comp := { c with hookCounter := idx + 1, hookMeta := hm }
  if depsChanged meta.deps deps then
    let cleanEvs : List Ev :=
      match meta.cleanup with
      | some cl => [Ev.cleanupRun cl.id cl.throwsErr]
      | none => []
    let c1 : Comp := { c0 with hookMeta := hm.set idx ⟨deps, none⟩,
                               effectQueue := c0.effectQueue ++ [(idx, effect)] }
    let c2 : Comp :=
      if c1.flushScheduled then c1
      else { c1 with flushScheduled := true, queuedFlushes := c1.queuedFlushes + 1 }
    (c2, cleanEvs ++ [Ev.enqueueEffect idx])
  else (c0, [])

/-- C4: `useEffect` treats the dependency array as changed exactly under the
claim's condition; when unchanged it is a pure slot allocation (no enqueue,
no cleanup invocation, empty trace); when changed, the slot's existing
cleanup (if any) runs before the effect-enqueue step, the effect is appended
to the queue, and the slot ends with the new deps and a cleared cleanup. -/
theorem C4_useEffect_dependency_diffing (c : Comp) (effect : EffBody)
    (deps : Option (List JSValue)) :
    (depsChanged (getHook (ensureHook c.hookMeta c.hookCounter) c.hookCounter).deps deps
        = true
      ↔ SpecDepsChanged
          (getHook (ensureHook c.hookMeta c.hookCounter) c.hookCounter).deps deps)
    ∧ (depsChanged (getHook (ensureHook c.hookMeta c.hookCounter) c.hookCounter).deps deps
        = false →
        useEffect c effect deps
          = ({ c with hookCounter := c.hookCounter + 1,
                      hookMeta := ensureHook c.hookMeta c.hookCounter }, []))
    ∧ (depsChanged (getHook (ensureHook c.hookMeta c.hookCounter) c.hookCounter).deps deps
        = true →
        (useEffect c effect deps).1.effectQueue
            = c.effectQueue ++ [(c.hookCounter, effect)]
        ∧ (useEffect c effect deps).2
            = (match (getHook (ensureHook c.hookMeta c.hookCounter) c.hookCounter).cleanup
               with
               | some cl => [Ev.cleanupRun cl.id cl.throwsErr]
               | none => []) ++ [Ev.enqueueEffect c.hookCounter]
        ∧ getHook (useEffect c effect deps).1.hookMeta c.hookCounter
            = ⟨deps, none⟩) := by
  refine ⟨depsChanged_iff_spec _ _, ?_, ?_⟩
  · intro h
    unfold useEffect
    simp [h]
  · intro h
    unfold useEffect
    simp only [h, if_true]
    refine ⟨?_, ?_, ?_⟩
    · by_cases hf : c.flushScheduled <;> simp [hf]
    · trivial
    · by_cases hf : c.flushScheduled <;>
        simp [hf, getHook_set_self _ _ _ (ensureHook_length c.hookMeta c.hookCounter)]

/-- A component whose first hook slot holds deps `[1]` and a live cleanup. -/
def c4ex : Comp :=
  { mkComp [] with hookMeta := [⟨some [JSValue.num 1], some ⟨7, false⟩⟩] }

/-- Witness for C4: at `c4ex`, passing deps `[2]` is a change — the stored
cleanup runs before the enqueue step and the effect is queued. -/
theorem C4_useEffect_dependency_diffing_witness :
    (useEffect c4ex (EffBody.ret none) (some [JSValue.num 2])).2
      = [Ev.cleanupRun 7 false, Ev.enqueueEffect 0]
    ∧ (useEffect c4ex (EffBody.ret none) (some [JSValue.num 2])).1.effectQueue
      = [(0, EffBody.ret none)] := by
  have h := (C4_useEffect_dependency_diffing c4ex (EffBody.ret none)
    (some [JSValue.num 2])).2.2 (by decide)
  refine ⟨?_, ?_⟩
  · rw [h.2.1]
    rfl
  · rw [h.1]
    rfl

/-- C2: writing a value strictly equal to the key's current value is a
complete no-op — the whole component state (stored values, pending keys,
flush flag, queued flush count) is unchanged. -/
theorem C2_identical_write_noop (c : Comp) (k : String) (v : JSValue)
    (h : jsGet c k = v) : stateWrite c k v = c :=
  stateWrite_noop c k v h

/-- Witness for C2 at a concrete component and value. -/
theorem C2_identical_write_noop_witness :
    stateWrite (mkComp [("count", JSValue.num 1)]) "count" (JSValue.num 1)
      = mkComp [("count", JSValue.num 1)] :=
  C2_identical_write_noop (mkComp [("count", JSValue.num 1)]) "count"
    (JSValue.num 1) (by decide)

/-- The cleanup pass of `remove` (Component.js:104-110): for every slot with
a live cleanup, invoke it (`try { ... } catch {}` — the swallowed exception
is visible as the event's `throwsErr` flag) and null the slot out. -/
def runCleanups : List Hook → List Hook × List Ev
  | [] => ([], [])
  | h :: t =>
    let r := runCleanups t
    match h.cleanup with
    | some cl => (⟨h.deps, none⟩ :: r.1, Ev.cleanupRun cl.id cl.throwsErr :: r.2)
    | none => (h :: r.1, r.2)

/-- `Component.remove` (Component.js:101-123), in source order: the unmount
lifecycle callback, the hook-cleanup pass, removal of each child component
(children are opaque handles here; each removal is one traced step),
removal of each registered event listener, then DOM detachment (only when
the element has a parent), and finally `__isMounted = false`. -/
def removeC (c : Comp) : Comp × List Ev :=
  let r := runCleanups c.hookMeta
  ({ c with hookMeta := r.1, children := [], eventListeners := [],
            attached := false, isMounted := false },
   [Ev.unmount] ++ r.2
     ++ c.children.map Ev.childRemove
     ++ c.eventListeners.map (fun p => Ev.listenerRemove p.1 p.2)
     ++ (if c.attached then [Ev.detach] else []))

theorem runCleanups_trace (hm : List Hook) :
    (runCleanups hm).2
      = hm.filterMap fun h => h.cleanup.map fun cl => Ev.cleanupRun cl.id cl.throwsErr := by
  induction hm with
  | nil => rfl
  | cons h t ih =>
    cases hc : h.cleanup <;> simp [runCleanups, hc, ih]

theorem runCleanups_cleared (hm : List Hook) :
    ∀ g ∈ (runCleanups hm).1, g.cleanup = none := by
  induction hm with
  | nil => simp [runCleanups]
  | cons h t ih =>
    intro g hg
    cases hc : h.cleanup with
    | some cl =>
      simp only [runCleanups, hc, List.mem_cons] at hg
      rcases hg with rfl | hg
      · rfl
      · exact ih g hg
    | none =>
      simp only [runCleanups, hc, List.mem_cons] at hg
      rcases hg with rfl | hg
      · exact hc
      · exact ih g hg

/-- C8: `remove()` tears down in this order — unmount callback, then each
hook slot's live cleanup exactly once (in slot order, exceptions swallowed),
then each child component, then each event listener, then DOM detachment —
and afterwards every slot's cleanup is cleared and the children/listener
lists are empty. -/
theorem C8_remove_teardown_order (c : Comp) :
    (removeC c).2
      = [Ev.unmount]
        ++ (c.hookMeta.filterMap fun h =>
              h.cleanup.map fun cl => Ev.cleanupRun cl.id cl.throwsErr)
        ++ c.children.map Ev.childRemove
        ++ c.eventListeners.map (fun p => Ev.listenerRemove p.1 p.2)
        ++ (if c.attached then [Ev.detach] else [])
    ∧ (∀ g ∈ (removeC c).1.hookMeta, g.cleanup = none)
    ∧ (removeC c).1.children = []
    ∧ (removeC c).1.eventListeners = []
    ∧ (removeC c).1.attached = false := by
  refine ⟨?_, ?_, rfl, rfl, rfl⟩
  · show [Ev.unmount] ++ (runCleanups c.hookMeta).2 ++ _ ++ _ ++ _ = _
    rw [runCleanups_trace]
  · exact runCleanups_cleared c.hookMeta

/-- A mounted component with one bound text node on key `"a"`. -/
def c5Start : Comp :=
  { mkComp [("a", JSValue.num 0)] with
      boundElements := [("a", [0])], dom := [(0, JSValue.str "0")],
      attached := true, isMounted := true }

/-- `c5Start` after a state write and a first-run `useEffect`, both of which
leave a flush pending, then `remove()`. -/
def c5Removed : Comp :=
  (removeC (useEffect (stateWrite c5Start "a" (JSValue.num 1))
      (EffBody.ret none) none).1).1

/-- C5 evidence: the flush that was pending when `remove()` ran is *not* a
no-op — it still writes the removed component's bound DOM node, still
invokes the update-lifecycle callback, and still runs the queued effect
(`remove` clears neither `__pendingKeys` nor `__effectQueue` nor
`__flushScheduled`, and `__flush` has no mounted guard). -/
theorem C5_flush_after_remove_not_noop :
    Ev.domWrite "a" 0 (JSValue.num 1) ∈ (flush c5Removed).2
    ∧ Ev.update ∈ (flush c5Removed).2
    ∧ Ev.effectRun 0 ∈ (flush c5Removed).2
    ∧ getA (flush c5Removed).1.dom 0 = some (JSValue.num 1) := by
  decide

/-- A provider entry `{ value, subs: Set }` (Context.js:14). Subscribers are
opaque callback handles in a `List` that models the insertion-ordered JS
`Set`. -/
structure CtxEntry where
  value : JSValue
  subs : List Nat
deriving DecidableEq, Repr

/-- A `Context` instance. Provider entries live behind references in `heap`
so that the entry *object* a closure captured at subscribe time is
distinguishable from whatever entry the boundary maps to later;
`registerProvider` allocates a fresh reference (`nextRef`). Boundary
elements are opaque `Nat` handles. -/
structure Ctx where
  defaultValue : JSValue
  providers : List (Nat × Nat)
  heap : List (Nat × CtxEntry)
  nextRef : Nat
  globalSubs : List Nat
deriving DecidableEq, Repr

/-- `Context.registerProvider` (Context.js:12-15): associate the boundary
with a brand-new `{ value, subs: new Set() }` entry, overwriting any prior
association (the old entry object survives for closures that captured it). -/
def registerProvider (ctx : Ctx) (e : Nat) (v : JSValue) : Ctx :=
  { ctx with providers := setA ctx.providers e ctx.nextRef,
             heap := setA ctx.heap ctx.nextRef ⟨v, []⟩,
             nextRef := ctx.nextRef + 1 }

/-- The unsubscribe closure returned by `subscribe`: it captured either a
specific provider entry object (`scoped`) or the context's global set. -/
inductive UnsubTok where
  | scoped (entryRef : Nat) (fn : Nat)
  | global (fn : Nat)
deriving DecidableEq, Repr

/-- `Set.prototype.add`. -/
def subAdd (l : List Nat) (fn : Nat) : List Nat :=
  if fn ∈ l then l else l ++ [fn]

/-- `Set.prototype.delete`. -/
def subDel (l : List Nat) (fn : Nat) : List Nat :=
  l.filter fun x => decide (x ≠ fn)

/-- `Context.subscribe` (Context.js:32-41): a registered provider boundary
gets the callback added to that entry's subscriber set (the returned
unsubscribe captures the entry); a falsy or unregistered boundary falls back
to the global subscriber set. -/
def subscribe (ctx : Ctx) (fn : Nat) (b : Option Nat) : Ctx × UnsubTok :=
  match b with
  | some e =>
    match getA ctx.providers e with
    | some ref =>
      match getA ctx.heap ref with
      | some entry =>
        ({ ctx with heap := setA ctx.heap ref { entry with subs := subAdd entry.subs fn } },
         UnsubTok.scoped ref fn)
      | none => (ctx, UnsubTok.scoped ref fn)
    | none => ({ ctx with globalSubs := subAdd ctx.globalSubs fn }, UnsubTok.global fn)
  | none => ({ ctx with globalSubs := subAdd ctx.globalSubs fn }, UnsubTok.global fn)

/-- Running an unsubscribe closure: `entry.subs.delete(fn)` on the captured
entry, or `globalSubs.delete(fn)`; total — it cannot fail. -/
def runUnsub (ctx : Ctx) : UnsubTok → Ctx
  | UnsubTok.scoped ref fn =>
    match getA ctx.heap ref with
    | some entry =>
      { ctx with heap := setA ctx.heap ref { entry with subs := subDel entry.subs fn } }
    | none => ctx
  | UnsubTok.global fn =>
    { ctx with globalSubs := subDel ctx.globalSubs fn }

/-- `valueOrUpdater`: either a plain value or an updater function applied to
the old value. -/
inductive SetArg where
  | val (v : JSValue)
  | upd (f : JSValue → JSValue)

def resolveArg (a : SetArg) (old : JSValue) : JSValue :=
  match a with
  | SetArg.val v => v
  | SetArg.upd f => f old

/-- What a subscriber callback does when notified: nothing, throw (caught
per-subscriber by `set`), or call an unsubscribe closure. -/
inductive SubAct where
  | noop
  | throwErr
  | unsub (tok : UnsubTok)

def applySubAct (ctx : Ctx) : SubAct → Ctx
  | SubAct.noop => ctx
  | SubAct.throwErr => ctx
  | SubAct.unsub tok => runUnsub ctx tok

/-- A notification delivered to a subscriber callback. -/
inductive CtxEv where
  | notify (fn : Nat) (v : JSValue)
deriving DecidableEq, Repr

/-- `entry.subs.forEach(s => { try { s(entry.value) } catch {} })` with JS
`Set.forEach` live-iteration semantics: the worklist is the membership list
at pass start, and an element is visited only if it is still in the *current*
set when its turn comes (our callbacks never add members, so this is exactly
the live iteration). The argument is `entry.value` read at call time. -/
def notifyScoped (beh : Nat → SubAct) (ref : Nat) : Ctx → List Nat → Ctx × List CtxEv
  | ctx, [] => (ctx, [])
  | ctx, fn :: rest =>
    match getA ctx.heap ref with
    | none => (ctx, [])
    | some entry =>
      if fn ∈ entry.subs then
        let r := notifyScoped beh ref (applySubAct ctx (beh fn)) rest
        (r.1, CtxEv.notify fn entry.value :: r.2)
      else
        notifyScoped beh ref ctx rest

/-- `this.globalSubs.forEach(s => { try { s(this.defaultValue) } catch {} })`
with the same live-iteration semantics. -/
def notifyGlobal (beh : Nat → SubAct) : Ctx → List Nat → Ctx × List CtxEv
  | ctx, [] => (ctx, [])
  | ctx, fn :: rest =>
    if fn ∈ ctx.globalSubs then
      let r := notifyGlobal beh (applySubAct ctx (beh fn)) rest
      (r.1, CtxEv.notify fn ctx.defaultValue :: r.2)
    else
      notifyGlobal beh ctx rest

/-- The global branch of `Context.set`: overwrite `defaultValue` with the
resolved value and notify the global subscribers. -/
def ctxSetGlobal (ctx : Ctx) (beh : Nat → SubAct) (arg : SetArg) : Ctx × List CtxEv :=
  let ctx1 : Ctx := { ctx with defaultValue := resolveArg arg ctx.defaultValue }
  notifyGlobal beh ctx1 ctx1.globalSubs

/-- `Context.set` (Context.js:44-53): a truthy, currently-registered
provider boundary updates that entry's value and notifies its subscriber
set; any other boundary (absent, or not a registered provider) falls through
to the global branch. -/
def ctxSet (ctx : Ctx) (beh : Nat → SubAct) (arg : SetArg) (b : Option Nat) :
    Ctx × List CtxEv :=
  match b with
  | some e =>
    match getA ctx.providers e with
    | some ref =>
      match getA ctx.heap ref with
      | some entry =>
        let entry1 : CtxEntry := { entry with value := resolveArg arg entry.value }
        let ctx1 : Ctx := { ctx with heap := setA ctx.heap ref entry1 }
        notifyScoped beh ref ctx1 entry.subs
      | none => (ctx, [])
    | none => ctxSetGlobal ctx beh arg
  | none => ctxSetGlobal ctx beh arg

theorem notifyScoped_noop (beh : Nat → SubAct) (ref : Nat)
    (hbeh : ∀ n, beh n = SubAct.noop) (ws : List Nat) :
    ∀ (ctx : Ctx) (entry : CtxEntry), getA ctx.heap ref = some entry →
      (∀ fn ∈ ws, fn ∈ entry.subs) →
      notifyScoped beh ref ctx ws
        = (ctx, ws.map fun fn => CtxEv.notify fn entry.value) := by
  induction ws with
  | nil => intro ctx entry _ _; rfl
  | cons fn rest ih =>
    intro ctx entry hheap hsub
    have hmem : fn ∈ entry.subs := hsub fn (List.mem_cons_self _ _)
    have hrest := ih ctx entry hheap (fun g hg => hsub g (List.mem_cons_of_mem _ hg))
    simp [notifyScoped, hheap, hmem, hbeh fn, applySubAct, hrest]

theorem notifyGlobal_noop (beh : Nat → SubAct)
    (hbeh : ∀ n, beh n = SubAct.noop) (ws : List Nat) :
    ∀ ctx : Ctx, (∀ fn ∈ ws, fn ∈ ctx.globalSubs) →
      notifyGlobal beh ctx ws
        = (ctx, ws.map fun fn => CtxEv.notify fn ctx.defaultValue) := by
  induction ws with
  | nil => intro ctx _; rfl
  | cons fn rest ih =>
    intro ctx hsub
    have hmem : fn ∈ ctx.globalSubs := hsub fn (List.mem_cons_self _ _)
    have hrest := ih ctx (fun g hg => hsub g (List.mem_cons_of_mem _ hg))
    simp [notifyGlobal, hmem, hbeh fn, applySubAct, hrest]

theorem ctxSetGlobal_noop (ctx : Ctx) (beh : Nat → SubAct) (arg : SetArg)
    (hbeh : ∀ n, beh n = SubAct.noop) :
    ctxSetGlobal ctx beh arg
      = ({ ctx with defaultValue := resolveArg arg ctx.defaultValue },
         ctx.globalSubs.map fun fn => CtxEv.notify fn (resolveArg arg ctx.defaultValue)) := by
  unfold ctxSetGlobal
  exact notifyGlobal_noop beh hbeh _ _ (fun _ hg => hg)

/-- C6: with (non-mutating) subscriber callbacks, `set()` on a registered
provider boundary notifies exactly that entry's current subscribers with the
new value, touching neither `defaultValue` nor the global subscribers;
`set()` with no boundary notifies exactly the global subscribers; and
`subscribe()` under a boundary that is not a registered provider adds the
callback to the global set and returns a global unsubscribe (no error). -/
theorem C6_set_scoping (ctx : Ctx) (beh : Nat → SubAct) (arg : SetArg)
    (hbeh : ∀ n, beh n = SubAct.noop) :
    (∀ e ref entry, getA ctx.providers e = some ref → getA ctx.heap ref = some entry →
       ctxSet ctx beh arg (some e)
         = ({ ctx with heap := setA ctx.heap ref ⟨resolveArg arg entry.value, entry.subs⟩ },
            entry.subs.map fun fn => CtxEv.notify fn (resolveArg arg entry.value)))
    ∧ (ctxSet ctx beh arg none
         = ({ ctx with defaultValue := resolveArg arg ctx.defaultValue },
            ctx.globalSubs.map fun fn => CtxEv.notify fn (resolveArg arg ctx.defaultValue)))
    ∧ (∀ e fn, getA ctx.providers e = none →
        subscribe ctx fn (some e)
          = ({ ctx with globalSubs := subAdd ctx.globalSubs fn }, UnsubTok.global fn)) := by
  refine ⟨?_, ?_, ?_⟩
  · intro e ref entry hp hh
    show (match getA ctx.providers e with
          | some ref =>
            match getA ctx.heap ref with
            | some entry =>
              let entry1 : CtxEntry := { entry with value := resolveArg arg entry.value }
              let ctx1 : Ctx := { ctx with heap := setA ctx.heap ref entry1 }
              notifyScoped beh ref ctx1 entry.subs
            | none => (ctx, [])
          | none => ctxSetGlobal ctx beh arg) = _
    simp only [hp, hh]
    have hh1 : getA (setA ctx.heap ref ⟨resolveArg arg entry.value, entry.subs⟩) ref
        = some ⟨resolveArg arg entry.value, entry.subs⟩ := getA_setA_self _ _ _
    exact notifyScoped_noop beh ref hbeh entry.subs _
      ⟨resolveArg arg entry.value, entry.subs⟩ hh1 (fun _ hg => hg)
  · exact ctxSetGlobal_noop ctx beh arg hbeh
  · intro e fn hp
    show (match getA ctx.providers e with
          | some ref =>
            match getA ctx.heap ref with
            | some entry =>
              ({ ctx with heap := setA ctx.heap ref { entry with subs := subAdd entry.subs fn } },
               UnsubTok.scoped ref fn)
            | none => (ctx, UnsubTok.scoped ref fn)
          | none => ({ ctx with globalSubs := subAdd ctx.globalSubs fn }, UnsubTok.global fn))
        = _
    simp only [hp]

/-- A context with one provider boundary `5` (entry ref `0`, value `1`,
subscriber `3`) and one global subscriber `4`. -/
def ctx6 : Ctx :=
  ⟨JSValue.num 0, [(5, 0)], [(0, ⟨JSValue.num 1, [3]⟩)], 1, [4]⟩

/-- Witness for C6 at `ctx6`. -/
theorem C6_set_scoping_witness :
    ctxSet ctx6 (fun _ => SubAct.noop) (SetArg.val (JSValue.num 7)) (some 5)
      = ({ ctx6 with heap := [(0, ⟨JSValue.num 7, [3]⟩)] },
         [CtxEv.notify 3 (JSValue.num 7)])
    ∧ ctxSet ctx6 (fun _ => SubAct.noop) (SetArg.val (JSValue.num 7)) none
      = ({ ctx6 with defaultValue := JSValue.num 7 },
         [CtxEv.notify 4 (JSValue.num 7)])
    ∧ subscribe ctx6 8 (some 9)
      = ({ ctx6 with globalSubs := [4, 8] }, UnsubTok.global 8) := by
  have h := C6_set_scoping ctx6 (fun _ => SubAct.noop) (SetArg.val (JSValue.num 7))
    (fun _ => rfl)
  refine ⟨?_, ?_, ?_⟩
  · rw [h.1 5 0 ⟨JSValue.num 1, [3]⟩ rfl rfl]
    rfl
  · rw [h.2.1]
    rfl
  · rw [h.2.2 9 8 rfl]
    rfl

/-- C9: `set()` with an absent boundary, or with a boundary that is not a
registered provider, silently takes the global branch: it overwrites
`defaultValue` with the resolved value and notifies every global subscriber
with it; `providers`/`heap` are untouched (visible in the record equality)
and the operation is total — it never raises. -/
theorem C9_set_unregistered_boundary_global (ctx : Ctx) (beh : Nat → SubAct)
    (arg : SetArg) (b : Option Nat) (hbeh : ∀ n, beh n = SubAct.noop)
    (hb : b = none ∨ ∃ e, b = some e ∧ getA ctx.providers e = none) :
    ctxSet ctx beh arg b
      = ({ ctx with defaultValue := resolveArg arg ctx.defaultValue },
         ctx.globalSubs.map fun fn => CtxEv.notify fn (resolveArg arg ctx.defaultValue)) := by
  rcases hb with rfl | ⟨e, rfl, hp⟩
  · exact ctxSetGlobal_noop ctx beh arg hbeh
  · show (match getA ctx.providers e with
          | some ref =>
            match getA ctx.heap ref with
            | some entry =>
              let entry1 : CtxEntry := { entry with value := resolveArg arg entry.value }
              let ctx1 : Ctx := { ctx with heap := setA ctx.heap ref entry1 }
              notifyScoped beh ref ctx1 entry.subs
            | none => (ctx, [])
          | none => ctxSetGlobal ctx beh arg) = _
    simp only [hp]
    exact ctxSetGlobal_noop ctx beh arg hbeh

/-- Witness for C9: an updater-style `set` under an unregistered boundary. -/
theorem C9_set_unregistered_boundary_global_witness :
    ctxSet ctx6 (fun _ => SubAct.noop)
        (SetArg.upd fun v => match v with
          | JSValue.num n => JSValue.num (n + 10)
          | v => v) (some 9)
      = ({ ctx6 with defaultValue := JSValue.num 10 },
         [CtxEv.notify 4 (JSValue.num 10)]) := by
  rw [C9_set_unregistered_boundary_global ctx6 (fun _ => SubAct.noop) _ (some 9)
    (fun _ => rfl) (Or.inr ⟨9, rfl, rfl⟩)]
  rfl

/-- Two global subscribers; subscriber 1's callback unsubscribes
subscriber 2 (a closure `subscribe` would have returned for it). -/
def ctx7 : Ctx := ⟨JSValue.num 0, [], [], 0, [1, 2]⟩

def beh7 : Nat → SubAct :=
  fun n => if n = 1 then SubAct.unsub (UnsubTok.global 2) else SubAct.noop

/-- C7 evidence: `set` iterates the *live* subscriber set (`Set.forEach`
with no snapshot), so when subscriber 1 unsubscribes subscriber 2 during
the pass, subscriber 2 — a member of the pass-start snapshot — is skipped:
only subscriber 1 is notified. The claim (and spec §5) requires the whole
pass-start snapshot to be notified. -/
theorem C7_unsubscribe_during_pass_skips_subscriber :
    (ctxSet ctx7 beh7 (SetArg.val (JSValue.num 5)) none).2
      = [CtxEv.notify 1 (JSValue.num 5)]
    ∧ (ctxSet ctx7 beh7 (SetArg.val (JSValue.num 5)) none).1.globalSubs = [1] := by
  constructor
  · rfl
  · rfl

/-- A context with provider boundary `5` mapped to entry ref `0` (value `1`,
no subscribers yet). -/
def ctx10 : Ctx := ⟨JSValue.num 0, [(5, 0)], [(0, ⟨JSValue.num 1, []⟩)], 1, []⟩

/-- Reduction of `subscribe` at a registered boundary. -/
theorem subscribe_registered (ctx : Ctx) (f e ref : Nat) (entry : CtxEntry)
    (hp : getA ctx.providers e = some ref) (hh : getA ctx.heap ref = some entry) :
    subscribe ctx f (some e)
      = ({ ctx with heap := setA ctx.heap ref ⟨entry.value, subAdd entry.subs f⟩ },
         UnsubTok.scoped ref f) := by
  show (match getA ctx.providers e with
        | some ref =>
          match getA ctx.heap ref with
          | some entry =>
            ({ ctx with heap := setA ctx.heap ref { entry with subs := subAdd entry.subs f } },
             UnsubTok.scoped ref f)
          | none => (ctx, UnsubTok.scoped ref f)
        | none => ({ ctx with globalSubs := subAdd ctx.globalSubs f }, UnsubTok.global f))
      = _
  simp only [hp, hh]

/-- Reduction of `ctxSet` at a registered boundary. -/
theorem ctxSet_registered (ctx : Ctx) (beh : Nat → SubAct) (arg : SetArg)
    (e ref : Nat) (entry : CtxEntry)
    (hp : getA ctx.providers e = some ref) (hh : getA ctx.heap ref = some entry) :
    ctxSet ctx beh arg (some e)
      = notifyScoped beh ref
          ({ ctx with heap := setA ctx.heap ref ⟨resolveArg arg entry.value, entry.subs⟩ })
          entry.subs := by
  show (match getA ctx.providers e with
        | some ref =>
          match getA ctx.heap ref with
          | some entry =>
            let entry1 : CtxEntry := { entry with value := resolveArg arg entry.value }
            let ctx1 : Ctx := { ctx with heap := setA ctx.heap ref entry1 }
            notifyScoped beh ref ctx1 entry.subs
          | none => (ctx, [])
        | none => ctxSetGlobal ctx beh arg) = _
  simp only [hp, hh]

/-- Reduction of an unsubscribe closure over a still-allocated entry. -/
theorem runUnsub_scoped (ctx : Ctx) (ref fn : Nat) (entry : CtxEntry)
    (hh : getA ctx.heap ref = some entry) :
    runUnsub ctx (UnsubTok.scoped ref fn)
      = { ctx with heap := setA ctx.heap ref ⟨entry.value, subDel entry.subs fn⟩ } := by
  show (match getA ctx.heap ref with
        | some entry =>
          { ctx with heap := setA ctx.heap ref { entry with subs := subDel entry.subs fn } }
        | none => ctx) = _
  simp only [hh]

/-- C10: `registerProvider` on an already-registered boundary replaces the
association with a brand-new entry carrying an empty subscriber set:
subscribers of the old entry are not notified by a subsequent `set()` on
that boundary (its notification list is empty), while the old unsubscribe
closure — which captured the discarded entry — still runs (it is total) and
leaves the new entry and the provider table untouched. -/
theorem C10_reregister_discards_old_subscribers (ctx : Ctx) (e f : Nat) (v' : JSValue)
    (ref0 : Nat) (entry0 : CtxEntry)
    (hp : getA ctx.providers e = some ref0)
    (hh : getA ctx.heap ref0 = some entry0)
    (hfresh : ref0 ≠ ctx.nextRef) :
    (subscribe ctx f (some e)).2 = UnsubTok.scoped ref0 f
    ∧ getA (registerProvider (subscribe ctx f (some e)).1 e v').providers e
        = some ctx.nextRef
    ∧ getA (registerProvider (subscribe ctx f (some e)).1 e v').heap ctx.nextRef
        = some ⟨v', []⟩
    ∧ (∀ beh arg,
        (ctxSet (registerProvider (subscribe ctx f (some e)).1 e v') beh arg (some e)).2
          = [])
    ∧ getA (runUnsub (registerProvider (subscribe ctx f (some e)).1 e v')
          (subscribe ctx f (some e)).2).heap ctx.nextRef = some ⟨v', []⟩
    ∧ (runUnsub (registerProvider (subscribe ctx f (some e)).1 e v')
          (subscribe ctx f (some e)).2).providers
        = (registerProvider (subscribe ctx f (some e)).1 e v').providers := by
  have hsub := subscribe_registered ctx f e ref0 entry0 hp hh
  rw [hsub]
  have hpe : getA (setA ctx.providers e ctx.nextRef) e = some ctx.nextRef :=
    getA_setA_self _ _ _
  have hhe : getA (setA (setA ctx.heap ref0 ⟨entry0.value, subAdd entry0.subs f⟩)
      ctx.nextRef (⟨v', []⟩ : CtxEntry)) ctx.nextRef = some ⟨v', []⟩ :=
    getA_setA_self _ _ _
  have hold : getA (setA (setA ctx.heap ref0 ⟨entry0.value, subAdd entry0.subs f⟩)
      ctx.nextRef (⟨v', []⟩ : CtxEntry)) ref0
      = some ⟨entry0.value, subAdd entry0.subs f⟩ := by
    rw [getA_setA_other _ _ _ _ hfresh, getA_setA_self]
  refine ⟨rfl, hpe, hhe, ?_, ?_, ?_⟩
  · intro beh arg
    rw [ctxSet_registered _ beh arg e ctx.nextRef ⟨v', []⟩ hpe hhe]
    rfl
  · rw [runUnsub_scoped _ ref0 f ⟨entry0.value, subAdd entry0.subs f⟩ hold]
    show getA (setA (setA (setA ctx.heap ref0 ⟨entry0.value, subAdd entry0.subs f⟩)
        ctx.nextRef (⟨v', []⟩ : CtxEntry)) ref0 _) ctx.nextRef = _
    rw [getA_setA_other _ _ _ _ (Ne.symm hfresh), hhe]
  · rw [runUnsub_scoped _ ref0 f ⟨entry0.value, subAdd entry0.subs f⟩ hold]

/-- Witness for C10 at `ctx10`, with subscriber `9` and new value `2`. -/
theorem C10_reregister_discards_old_subscribers_witness :
    (subscribe ctx10 9 (some 5)).2 = UnsubTok.scoped 0 9
    ∧ getA (registerProvider (subscribe ctx10 9 (some 5)).1 5 (JSValue.num 2)).providers 5
        = some 1
    ∧ (ctxSet (registerProvider (subscribe ctx10 9 (some 5)).1 5 (JSValue.num 2))
        (fun _ => SubAct.noop) (SetArg.val (JSValue.num 3)) (some 5)).2 = []
    ∧ getA (runUnsub (registerProvider (subscribe ctx10 9 (some 5)).1 5 (JSValue.num 2))
          (subscribe ctx10 9 (some 5)).2).heap 1 = some ⟨JSValue.num 2, []⟩ := by
  have h := C10_reregister_discards_old_subscribers ctx10 5 9 (JSValue.num 2) 0
    ⟨JSValue.num 1, []⟩ rfl rfl (by decide)
  exact ⟨h.1, h.2.1, h.2.2.2.1 (fun _ => SubAct.noop) (SetArg.val (JSValue.num 3)),
    h.2.2.2.2.1⟩
